import Mathlib

/-!
Shallow embedding of `datagenerator/core/clock.py` (trumania).

Conventions of the embedding:
* simulated instants are integers (seconds since an arbitrary epoch), so
  `pd.Timestamp` / `timedelta` arithmetic becomes integer arithmetic;
* the floating-point cdf values of the profile table are embedded as
  rationals `ℚ` (exact arithmetic stands in for float arithmetic);
* the profile `DataFrame` with columns `cdf` and `timeframe` is a list of
  pairs `(cdf value, timeframe index)`, ordered as the rows of the frame;
* randomness is passed in explicitly: a caller supplies the uniform draws
  that `numpy.random.RandomState` would produce, so every operation is a
  pure function of its inputs.
-/

/-- A row list standing for the `self.profile` DataFrame of
`CyclicTimerGenerator`: each entry is `(cdf, timeframe)`. -/
abbrev TimerTable := List (ℚ × ℕ)

namespace CyclicTimerGenerator

/-- The `cdf` column of the profile table. -/
def cdfs (l : TimerTable) : List ℚ := l.map Prod.fst

/-- The debug `timeframe` column of the profile table. -/
def timeframes (l : TimerTable) : List ℕ := l.map Prod.snd

/-- Embedding of `CyclicTimerGenerator.increment` (clock.py lines 159-171):
subtract the first cdf value from the whole cdf column, rotate the rows left
by one (first row moves to the end), and force the cdf of the new last row
(the old first row) to exactly 1.  On an empty table the Python code would
raise (`iloc[0]` on an empty frame); the `[]` branch is never reached by a
constructed generator. -/
def increment : TimerTable → TimerTable
  | [] => []
  | (c0, t0) :: rest => (rest.map fun r => (r.1 - c0, r.2)) ++ [(1, t0)]

/-- Embedding of `numpy.searchsorted` with the default `side='left'` on a
sorted array: the smallest index `k` with `v ≤ a[k]`, or `a.length` when no
entry qualifies.  (`np.searchsorted` is specified to return exactly this on
a sorted input, which the cdf column is.) -/
def searchsorted (a : List ℚ) (v : ℚ) : ℕ :=
  a.findIdx fun c => decide (v ≤ c)

/-- Embedding of `CyclicTimerGenerator.generate` (clock.py lines 173-188)
for a single actor: given the uniform draw `draw` (the entry of
`self._state.uniform(size=...)` for this actor) and the actor's observation,
compute `p = draw / observation` and search the cdf column.  The batch
version is the pointwise map of this over the observation series. -/
def generate (table : TimerTable) (draw observation : ℚ) : ℕ :=
  searchsorted (cdfs table) (draw / observation)

/-- Running sums: `fromDeltas acc l` replaces the first components of `l`
by their running sums started from `acc`, keeping second components.  Used
to embed `cumsum` and to reason about `increment`. -/
def fromDeltas (acc : ℚ) : List (ℚ × ℕ) → List (ℚ × ℕ)
  | [] => []
  | (e, t) :: rest => (acc + e, t) :: fromDeltas (acc + e) rest

/-- Inverse of `fromDeltas`: replace the first components by their
successive differences, `prev` being the value preceding the first one. -/
def toDeltas (prev : ℚ) : List (ℚ × ℕ) → List (ℚ × ℕ)
  | [] => []
  | (c, t) :: rest => (c - prev, t) :: toDeltas c rest

/-- Embedding of the table construction in `CyclicTimerGenerator.__init__`
(clock.py lines 133-149), before the micro-alignment loop.  The resampling
of the weight profile to clock-tick granularity forward-fills each weight
over the `ticksPerPhase` clock ticks its phase spans (the appended `NaN`
sentinel plus `[:-1]` make the last weight fill its phase too); the result
is normalised by the total weight and cumulated into the `cdf` column, and
`timeframe` is `np.arange` of the row count.  A zero total weight makes the
Python divisions produce NaN (float `0/0`) without raising; here `ℚ`
division by zero yields `0`, and in both cases construction completes with
a degenerate table whose last cdf is not 1. -/
def init_table (weights : List ℚ) (ticksPerPhase : ℕ) : TimerTable :=
  let w := (weights.map (List.replicate ticksPerPhase)).flatten
  let s := w.sum
  fromDeltas 0 ((w.map fun x => x / s).zip (List.range w.length))

end CyclicTimerGenerator

/-- Embedding of the `Clock` state (clock.py lines 9-45): the current
simulated instant, the step in seconds, and the profile tables of the
registered increment listeners, in registration order. -/
structure Clock where
  current_date : ℤ
  step_s : ℕ
  listeners : List TimerTable

/-- Embedding of `Clock.increment` (clock.py lines 52-61): advance
`current_date` by `step_s` seconds, then increment every registered
listener. -/
def Clock.increment (c : Clock) : Clock :=
  { current_date := c.current_date + c.step_s
    step_s := c.step_s
    listeners := c.listeners.map CyclicTimerGenerator.increment }

/-- Embedding of `Clock.get_timestamp` (clock.py lines 63-75):
`self.__state.choice(self.step_s, size)` draws `size` uniform integers in
`[0, step_s)`; each is added as seconds to `current_date`.  The raw stream
values are passed in as `draws`, and `% step_s` embeds the choice of a
uniform integer below `step_s`.  The method reads but never assigns
`current_date`, so the clock comes back unchanged (only the private RNG
state advances, which here is the caller consuming `draws`). -/
def Clock.get_timestamp (c : Clock) (draws : List ℕ) : List ℤ × Clock :=
  (draws.map fun d => c.current_date + ((d % c.step_s : ℕ) : ℤ), c)

/-- C2: after `n` calls to `Clock.increment`, the current time is exactly
`start + n * step_duration`; in particular it never decreases, and only
`increment` (not `get_timestamp`, which returns the clock unchanged)
changes it. -/
theorem clock_increment_exact (c : Clock) (n : ℕ) :
    (Clock.increment^[n] c).current_date = c.current_date + n * c.step_s ∧
    c.current_date ≤ (Clock.increment^[n] c).current_date := by
  have hstep : ∀ m : ℕ, (Clock.increment^[m] c).step_s = c.step_s := by
    intro m
    induction m with
    | zero => simp
    | succ k ih => rw [Function.iterate_succ_apply', Clock.increment]; exact ih
  have h : ∀ m : ℕ, (Clock.increment^[m] c).current_date
      = c.current_date + m * c.step_s := by
    intro m
    induction m with
    | zero => simp
    | succ k ih =>
      rw [Function.iterate_succ_apply', Clock.increment]
      simp only [hstep k] at *
      rw [ih]
      push_cast
      ring
  refine ⟨h n, ?_⟩
  rw [h n]
  have : (0 : ℤ) ≤ (n : ℤ) * (c.step_s : ℤ) := by positivity
  omega

/-- C6: every timestamp returned by `get_timestamp` lies in
`[current_date, current_date + step_s)`, being `current_date` plus a
uniform integer number of seconds in `[0, step_s)`, and the call leaves
`current_date` unchanged. -/
theorem get_timestamp_bounds (c : Clock) (draws : List ℕ) (h : 0 < c.step_s) :
    (∀ t ∈ (Clock.get_timestamp c draws).1,
        c.current_date ≤ t ∧ t < c.current_date + c.step_s) ∧
    (Clock.get_timestamp c draws).2.current_date = c.current_date := by
  refine ⟨?_, rfl⟩
  intro t ht
  rcases List.mem_map.mp ht with ⟨d, _, rfl⟩
  have hd : d % c.step_s < c.step_s := Nat.mod_lt d h
  constructor
  · have : (0 : ℤ) ≤ ((d % c.step_s : ℕ) : ℤ) := Int.natCast_nonneg _
    omega
  · have : ((d % c.step_s : ℕ) : ℤ) < (c.step_s : ℤ) := by exact_mod_cast hd
    omega

/-- Witness for C6 at a concrete clock with step 10 and draws 3 and 17. -/
theorem get_timestamp_bounds_witness :
    (∀ t ∈ (Clock.get_timestamp ⟨0, 10, []⟩ [3, 17]).1,
        (0 : ℤ) ≤ t ∧ t < 0 + (10 : ℕ)) ∧
    (Clock.get_timestamp ⟨0, 10, []⟩ [3, 17]).2.current_date = 0 :=
  get_timestamp_bounds ⟨0, 10, []⟩ [3, 17] (by decide)

/-- When every element satisfying `q` also satisfies `p`, the first index
satisfying `p` comes no later than the first index satisfying `q`. -/
theorem findIdx_mono_of_imp {α : Type} (p q : α → Bool)
    (h : ∀ x, q x = true → p x = true) (l : List α) :
    l.findIdx p ≤ l.findIdx q := by
  induction l with
  | nil => exact Nat.le_refl _
  | cons a l ih =>
    rw [List.findIdx_cons, List.findIdx_cons]
    cases hq : q a with
    | false =>
      cases hp : p a with
      | false => simpa using Nat.succ_le_succ ih
      | true => simp
    | true => rw [h a hq]; simp

/-- C3: for a fixed table and a fixed uniform draw `r ≥ 0`, `generate` is
antitone in the observation: a strictly larger (more active) observation
never receives a strictly longer wait-time.  The sortedness hypothesis on
the cdf column records the precondition under which `np.searchsorted`
returns the smallest qualifying index. -/
theorem generate_antitone (table : TimerTable) (r o1 o2 : ℚ)
    (hr : 0 ≤ r) (h1 : 0 < o1) (h12 : o1 < o2)
    (hs : List.Chain' (· ≤ ·) (CyclicTimerGenerator.cdfs table)) :
    CyclicTimerGenerator.generate table r o2 ≤
      CyclicTimerGenerator.generate table r o1 := by
  unfold CyclicTimerGenerator.generate CyclicTimerGenerator.searchsorted
  apply findIdx_mono_of_imp
  intro x hx
  have h2 : 0 < o2 := h1.trans h12
  have hdiv : r / o2 ≤ r / o1 := by
    rw [div_le_div_iff₀ h2 h1]
    exact mul_le_mul_of_nonneg_left h12.le hr
  exact decide_eq_true (hdiv.trans (of_decide_eq_true hx))

/-- Witness for C3: on the two-row table with cdf column `[1/2, 1]`, draw
`1/2`, the observation `2` waits no longer than the observation `1`. -/
theorem generate_antitone_witness :
    CyclicTimerGenerator.generate [((1 : ℚ)/2, 0), (1, 1)] (1/2) 2 ≤
      CyclicTimerGenerator.generate [((1 : ℚ)/2, 0), (1, 1)] (1/2) 1 :=
  generate_antitone [((1 : ℚ)/2, 0), (1, 1)] (1/2) 1 2
    (by norm_num) (by norm_num) (by norm_num)
    (by norm_num [CyclicTimerGenerator.cdfs, List.chain'_cons])

/-- C4: whenever `draw / observation` exceeds every cdf value in the table
(in particular whenever it exceeds 1), `generate` returns exactly the
number of table rows — the cycle length, meaning a wait of at least one
full cycle — rather than an out-of-range index or a failure. -/
theorem generate_clamps_to_cycle_length (table : TimerTable) (r o : ℚ)
    (ho : 0 < o) (h : ∀ c ∈ CyclicTimerGenerator.cdfs table, c < r / o) :
    CyclicTimerGenerator.generate table r o = table.length := by
  unfold CyclicTimerGenerator.generate CyclicTimerGenerator.searchsorted
  have hlen : (CyclicTimerGenerator.cdfs table).length = table.length :=
    List.length_map _ _
  rw [← hlen]
  apply List.findIdx_eq_length_of_false
  intro x hx
  exact decide_eq_false (not_le.mpr (h x hx))

/-- Witness for C4: with cdf column `[1/2, 1]`, draw `1/2` and observation
`1/10`, the ratio is `5 > 1` and `generate` returns the row count `2`. -/
theorem generate_clamps_witness :
    CyclicTimerGenerator.generate [((1 : ℚ)/2, 0), (1, 1)] (1/2) (1/10)
      = ([((1 : ℚ)/2, 0), (1, 1)] : TimerTable).length :=
  generate_clamps_to_cycle_length [((1 : ℚ)/2, 0), (1, 1)] (1/2) (1/10)
    (by norm_num) (by norm_num [CyclicTimerGenerator.cdfs])

/-- C8: `generate` performs no input validation.  At the negative
observation `-1` (with draw `1/2`, on the table with cdf column
`[1/2, 1]`) the Python code computes `p = 0.5 / -1 = -0.5` and
`searchsorted` returns index 0: the batch gets the wait-time `0` instead
of any input-validation error. -/
theorem generate_accepts_nonpositive_observation :
    CyclicTimerGenerator.generate [((1 : ℚ)/2, 0), (1, 1)] (1/2) (-1) = 0 := by
  norm_num [CyclicTimerGenerator.generate, CyclicTimerGenerator.searchsorted,
    CyclicTimerGenerator.cdfs, List.findIdx_cons]

/-- The cdf column of an incremented non-empty table: the tail of the old
column shifted down by the old first value, with 1 appended. -/
theorem cdfs_increment_cons (c0 : ℚ) (t0 : ℕ) (rest : List (ℚ × ℕ)) :
    CyclicTimerGenerator.cdfs (CyclicTimerGenerator.increment ((c0, t0) :: rest))
      = (CyclicTimerGenerator.cdfs rest).map (fun x => x - c0) ++ [1] := by
  simp only [CyclicTimerGenerator.increment, CyclicTimerGenerator.cdfs,
    List.map_append, List.map_map, List.map_cons, List.map_nil]
  rfl

/-- Counterexample to C1 as stated: build the generator table from weights
`[1, 1]` at one tick per phase (cdf column `[1/2, 1]`) and rotate once;
immediately after the rotation the first cdf value is `1/2`, not `0`.
The first row of a freshly rotated table carries the normalised weight of
the new current tick, which is zero only for a zero-weight tick. -/
theorem increment_head_cdf_ne_zero :
    (CyclicTimerGenerator.cdfs (CyclicTimerGenerator.increment
        (CyclicTimerGenerator.init_table [1, 1] 1))).head? = some (1/2) ∧
    ((1 : ℚ)/2) ≠ 0 := by
  constructor
  · norm_num [CyclicTimerGenerator.init_table, CyclicTimerGenerator.fromDeltas,
      CyclicTimerGenerator.increment, CyclicTimerGenerator.cdfs, List.range_succ]
  · norm_num

/-- C1 (amended): immediately after each `increment` of a well-formed
table, the cumulative column is non-decreasing, its last value is exactly
1, and its first value is non-negative — but not 0 in general: the first
value is the normalised weight of the new current tick (see the
counterexample), so the `table[0] = 0` part of the claim holds only for
zero-weight ticks. -/
theorem increment_cycle_closure (l : TimerTable)
    (hmono : List.Chain' (· ≤ ·) (CyclicTimerGenerator.cdfs l))
    (hlast : (CyclicTimerGenerator.cdfs l).getLast? = some 1)
    (h0 : ∀ x ∈ (CyclicTimerGenerator.cdfs l).head?, 0 ≤ x) :
    List.Chain' (· ≤ ·)
        (CyclicTimerGenerator.cdfs (CyclicTimerGenerator.increment l)) ∧
    (CyclicTimerGenerator.cdfs (CyclicTimerGenerator.increment l)).getLast?
        = some 1 ∧
    ∀ x ∈ (CyclicTimerGenerator.cdfs (CyclicTimerGenerator.increment l)).head?,
        0 ≤ x := by
  cases l with
  | nil => simp [CyclicTimerGenerator.cdfs] at hlast
  | cons a rest =>
    obtain ⟨c0, t0⟩ := a
    have hc0 : 0 ≤ c0 := h0 c0 (by simp [CyclicTimerGenerator.cdfs])
    rw [cdfs_increment_cons]
    cases rest with
    | nil =>
      simp [CyclicTimerGenerator.cdfs]
    | cons b rest' =>
      obtain ⟨c1, t1⟩ := b
      simp only [CyclicTimerGenerator.cdfs, List.map_cons] at hmono hlast
      rw [List.getLast?_cons_cons] at hlast
      obtain ⟨h01, hchain⟩ := List.chain'_cons.mp hmono
      refine ⟨?_, List.getLast?_concat _, ?_⟩
      · rw [List.chain'_append]
        refine ⟨?_, List.chain'_singleton _, ?_⟩
        · rw [List.chain'_map]
          exact hchain.imp fun a b h => sub_le_sub_right h c0
        · intro x hx y hy
          simp only [List.head?_cons, Option.mem_def, Option.some.injEq] at hy
          rw [List.getLast?_map] at hx
          simp only [CyclicTimerGenerator.cdfs, List.map_cons] at hx
          rw [hlast] at hx
          simp only [Option.map_some', Option.mem_def, Option.some.injEq] at hx
          subst hx
          subst hy
          exact sub_le_self 1 hc0
      · intro x hx
        simp only [CyclicTimerGenerator.cdfs, List.map_cons, List.cons_append,
          List.head?_cons, Option.mem_def, Option.some.injEq] at hx
        subst hx
        exact sub_nonneg.mpr h01

/-- Witness for the amended C1 at the table with cdf column `[1/2, 1]`. -/
theorem increment_cycle_closure_witness :
    List.Chain' (· ≤ ·) (CyclicTimerGenerator.cdfs
        (CyclicTimerGenerator.increment [((1 : ℚ)/2, 0), (1, 1)])) ∧
    (CyclicTimerGenerator.cdfs
        (CyclicTimerGenerator.increment [((1 : ℚ)/2, 0), (1, 1)])).getLast?
      = some 1 ∧
    ∀ x ∈ (CyclicTimerGenerator.cdfs
        (CyclicTimerGenerator.increment [((1 : ℚ)/2, 0), (1, 1)])).head?,
      0 ≤ x :=
  increment_cycle_closure [((1 : ℚ)/2, 0), (1, 1)]
    (by norm_num [CyclicTimerGenerator.cdfs, List.chain'_cons])
    (by norm_num [CyclicTimerGenerator.cdfs])
    (by norm_num [CyclicTimerGenerator.cdfs])

/-- C10: each `increment` of a non-empty table keeps the number of rows,
and the `timeframe` column after the call is exactly the cyclic left
rotation by one position of the column before the call (the old first
index moves to the end). -/
theorem increment_rotates_timeframes (l : TimerTable) (hne : l ≠ []) :
    (CyclicTimerGenerator.increment l).length = l.length ∧
    CyclicTimerGenerator.timeframes (CyclicTimerGenerator.increment l)
      = (CyclicTimerGenerator.timeframes l).rotate 1 := by
  cases l with
  | nil => exact absurd rfl hne
  | cons a rest =>
    obtain ⟨c0, t0⟩ := a
    refine ⟨by simp [CyclicTimerGenerator.increment], ?_⟩
    rw [show (1 : ℕ) = 0 + 1 from rfl]
    simp only [CyclicTimerGenerator.timeframes, CyclicTimerGenerator.increment,
      List.map_cons, List.rotate_cons_succ, List.rotate_zero, List.map_append,
      List.map_map, List.map_nil]
    rfl

/-- Witness for C10 at the two-row table with cdf column `[1/2, 1]`. -/
theorem increment_rotates_timeframes_witness :
    (CyclicTimerGenerator.increment [((1 : ℚ)/2, 0), (1, 1)]).length
      = ([((1 : ℚ)/2, 0), (1, 1)] : TimerTable).length ∧
    CyclicTimerGenerator.timeframes
        (CyclicTimerGenerator.increment [((1 : ℚ)/2, 0), (1, 1)])
      = (CyclicTimerGenerator.timeframes [((1 : ℚ)/2, 0), (1, 1)]).rotate 1 :=
  increment_rotates_timeframes [((1 : ℚ)/2, 0), (1, 1)] (List.cons_ne_nil _ _)

/-- Taking running sums of the successive differences recovers the list. -/
theorem fromDeltas_toDeltas (l : List (ℚ × ℕ)) :
    ∀ a, CyclicTimerGenerator.fromDeltas a (CyclicTimerGenerator.toDeltas a l) = l := by
  induction l with
  | nil => intro a; rfl
  | cons p rest ih =>
    intro a
    obtain ⟨c, t⟩ := p
    simp only [CyclicTimerGenerator.toDeltas, CyclicTimerGenerator.fromDeltas]
    rw [show a + (c - a) = c by ring, ih c]

/-- Difference taking preserves the number of rows. -/
theorem length_toDeltas (l : List (ℚ × ℕ)) :
    ∀ a, (CyclicTimerGenerator.toDeltas a l).length = l.length := by
  induction l with
  | nil => intro a; rfl
  | cons p rest ih =>
    intro a
    obtain ⟨c, t⟩ := p
    simp only [CyclicTimerGenerator.toDeltas, List.length_cons, ih c]

/-- The differences of a non-empty list sum (together with the start value)
to its last entry. -/
theorem sum_fst_toDeltas (rest : List (ℚ × ℕ)) :
    ∀ (a c : ℚ) (t : ℕ) (x : ℚ),
      (CyclicTimerGenerator.cdfs ((c, t) :: rest)).getLast? = some x →
      a + ((CyclicTimerGenerator.toDeltas a ((c, t) :: rest)).map Prod.fst).sum
        = x := by
  induction rest with
  | nil =>
    intro a c t x hx
    simp only [CyclicTimerGenerator.cdfs, List.map_cons, List.map_nil,
      List.getLast?_singleton, Option.some.injEq] at hx
    subst hx
    simp [CyclicTimerGenerator.toDeltas]
  | cons q rest' ih =>
    intro a c t x hx
    obtain ⟨c2, t2⟩ := q
    simp only [CyclicTimerGenerator.cdfs, List.map_cons,
      List.getLast?_cons_cons] at hx
    simp only [CyclicTimerGenerator.toDeltas, List.map_cons, List.sum_cons]
    have h2 := ih c c2 t2 x (by
      simp only [CyclicTimerGenerator.cdfs, List.map_cons]
      exact hx)
    simp only [CyclicTimerGenerator.toDeltas, List.map_cons, List.sum_cons] at h2
    linarith

/-- Shifting every running sum down by `x` is the same as starting the
accumulator `x` lower. -/
theorem map_sub_fromDeltas (x : ℚ) (l : List (ℚ × ℕ)) :
    ∀ a, (CyclicTimerGenerator.fromDeltas a l).map (fun r => (r.1 - x, r.2))
      = CyclicTimerGenerator.fromDeltas (a - x) l := by
  induction l with
  | nil => intro a; rfl
  | cons p rest ih =>
    intro a
    obtain ⟨e, t⟩ := p
    simp only [CyclicTimerGenerator.fromDeltas, List.map_cons, ih (a + e)]
    rw [show a + e - x = a - x + e by ring]

/-- Running sums over an appended list restart from the accumulated total. -/
theorem fromDeltas_append (l1 l2 : List (ℚ × ℕ)) :
    ∀ a, CyclicTimerGenerator.fromDeltas a (l1 ++ l2)
      = CyclicTimerGenerator.fromDeltas a l1
        ++ CyclicTimerGenerator.fromDeltas (a + (l1.map Prod.fst).sum) l2 := by
  induction l1 with
  | nil => intro a; simp [CyclicTimerGenerator.fromDeltas]
  | cons p rest ih =>
    intro a
    obtain ⟨e, t⟩ := p
    simp only [List.cons_append, CyclicTimerGenerator.fromDeltas, List.map_cons,
      List.sum_cons, List.append_eq]
    rw [ih (a + e),
      show a + e + (rest.map Prod.fst).sum = a + (e + (rest.map Prod.fst).sum) by ring]

/-- One table rotation, seen through the difference representation: when
the differences sum to 1 (the table closes at cdf 1), `increment` rotates
the difference list left by one. -/
theorem increment_fromDeltas (d : List (ℚ × ℕ)) (hd : d ≠ [])
    (hsum : (d.map Prod.fst).sum = 1) :
    CyclicTimerGenerator.increment (CyclicTimerGenerator.fromDeltas 0 d)
      = CyclicTimerGenerator.fromDeltas 0 (d.rotate 1) := by
  cases d with
  | nil => exact absurd rfl hd
  | cons p rest =>
    obtain ⟨e0, t0⟩ := p
    rw [show (1 : ℕ) = 0 + 1 from rfl, List.rotate_cons_succ, List.rotate_zero]
    simp only [CyclicTimerGenerator.fromDeltas, CyclicTimerGenerator.increment]
    rw [map_sub_fromDeltas (0 + e0) rest (0 + e0), fromDeltas_append]
    simp only [List.map_cons, List.sum_cons] at hsum
    rw [show (0 : ℚ) + e0 - (0 + e0) = 0 by ring]
    simp only [CyclicTimerGenerator.fromDeltas]
    rw [show (0 : ℚ) + (rest.map Prod.fst).sum + e0 = 1 by linarith]

/-- Iterating `increment` rotates the difference list, provided the table
closes at cdf 1 (a property every rotation preserves). -/
theorem iterate_increment_fromDeltas (k : ℕ) (d : List (ℚ × ℕ)) (hd : d ≠ [])
    (hsum : (d.map Prod.fst).sum = 1) :
    CyclicTimerGenerator.increment^[k] (CyclicTimerGenerator.fromDeltas 0 d)
      = CyclicTimerGenerator.fromDeltas 0 (d.rotate k) := by
  induction k with
  | zero => simp
  | succ n ih =>
    have hperm : List.Perm ((d.rotate n).map Prod.fst) (d.map Prod.fst) :=
      (List.rotate_perm d n).map Prod.fst
    have hd' : d.rotate n ≠ [] := by
      intro h
      apply hd
      have := List.length_rotate d n
      rw [h] at this
      exact List.eq_nil_of_length_eq_zero this.symm
    rw [Function.iterate_succ_apply', ih,
      increment_fromDeltas (d.rotate n) hd' (by rw [hperm.sum_eq, hsum]),
      List.rotate_rotate]

/-- C5: applying `increment` exactly `cycle_length` (the row count) times
to a table that closes at cdf 1 returns the whole table — both the
cumulative-probability column and the timeframe column — to exactly its
prior value (the embedding computes in `ℚ`, so the floating tolerance of
the claim is the exact equality here). -/
theorem increment_periodic (l : TimerTable) (hne : l ≠ [])
    (hlast : (CyclicTimerGenerator.cdfs l).getLast? = some 1) :
    CyclicTimerGenerator.increment^[l.length] l = l := by
  cases l with
  | nil => exact absurd rfl hne
  | cons p rest =>
    obtain ⟨c, t⟩ := p
    have hl := (fromDeltas_toDeltas ((c, t) :: rest) 0).symm
    have hsum : ((CyclicTimerGenerator.toDeltas 0 ((c, t) :: rest)).map Prod.fst).sum = 1 := by
      have := sum_fst_toDeltas rest 0 c t 1 hlast
      linarith
    have hd : CyclicTimerGenerator.toDeltas 0 ((c, t) :: rest) ≠ [] := by
      simp [CyclicTimerGenerator.toDeltas]
    have hlen : ((c, t) :: rest).length
        = (CyclicTimerGenerator.toDeltas 0 ((c, t) :: rest)).length :=
      (length_toDeltas _ 0).symm
    rw [hl, iterate_increment_fromDeltas _ _ hd hsum]
    rw [show (CyclicTimerGenerator.fromDeltas 0
        (CyclicTimerGenerator.toDeltas 0 ((c, t) :: rest))).length
        = (CyclicTimerGenerator.toDeltas 0 ((c, t) :: rest)).length by
      rw [fromDeltas_toDeltas]; exact hlen]
    rw [List.rotate_length]

/-- Witness for C5: the two-row table with cdf column `[1/2, 1]` returns
to itself after two rotations. -/
theorem increment_periodic_witness :
    CyclicTimerGenerator.increment^[([((1 : ℚ)/2, 0), (1, 1)] : TimerTable).length]
        [((1 : ℚ)/2, 0), (1, 1)] = [((1 : ℚ)/2, 0), (1, 1)] :=
  increment_periodic [((1 : ℚ)/2, 0), (1, 1)] (List.cons_ne_nil _ _)
    (by norm_num [CyclicTimerGenerator.cdfs])

/-- C7: `CyclicTimerGenerator.__init__` performs no validation of the
total weight.  With the all-zero profile `[0, 0]` construction completes
and returns a degenerate table instead of raising a configuration error:
every cdf entry is the float `0/0` (NaN in Python, `0` in this `ℚ`
embedding), so the table does not close at 1. -/
theorem init_table_zero_weights_completes :
    CyclicTimerGenerator.init_table [0, 0] 1 = [(0, 0), (0, 1)] ∧
    (CyclicTimerGenerator.cdfs (CyclicTimerGenerator.init_table [0, 0] 1)).getLast?
      ≠ some 1 := by
  constructor <;>
    norm_num [CyclicTimerGenerator.init_table, CyclicTimerGenerator.fromDeltas,
      CyclicTimerGenerator.cdfs, List.range_succ]

/-- Embedding of `CyclicTimerProfile` (clock.py lines 191-211): the ordered
weights, the phase duration token (e.g. "15min", kept as an opaque string),
and the anchor instant (seconds since the epoch, as for `Clock`). -/
structure CyclicTimerProfile where
  profile : List ℚ
  profile_time_steps : String
  start_date : ℤ
deriving DecidableEq

/-- A cell of the flat file written by `save_to`: the textual form of a
number, of a duration token, or of a timestamp.  Python's `str` round-trips
each of these through the CSV faithfully, which the constructors record. -/
inductive SavedCell where
  | num (q : ℚ)
  | str (s : String)
  | date (d : ℤ)
deriving DecidableEq

/-- A row of the saved CSV: the two-level index `(kind, position)` produced
by `stack` plus `reorder_levels([1, 0])`, and the cell value. -/
abbrev SavedRow := (String × ℕ) × SavedCell

/-- Embedding of `CyclicTimerProfile.save_to` (clock.py lines 213-222): one
row `(("profile", i), weight_i)` per weight, in order (the DataFrame rows
are indexed 0..n-1), followed by the `("start_date", 0)` and
`("profile_time_steps", 0)` rows appended by the two `loc` assignments. -/
def CyclicTimerProfile.save_to (p : CyclicTimerProfile) : List SavedRow :=
  (p.profile.enum.map fun it => (("profile", it.1), SavedCell.num it.2))
    ++ [(("start_date", 0), SavedCell.date p.start_date),
        (("profile_time_steps", 0), SavedCell.str p.profile_time_steps)]

/-- The `.astype(float)` step of `load_from` over the profile rows: every
cell must be numeric, otherwise the load is a data-format error. -/
def readNums : List SavedRow → Option (List ℚ)
  | [] => some []
  | (_, SavedCell.num q) :: rest => (readNums rest).map (q :: ·)
  | _ => none

/-- Embedding of `CyclicTimerProfile.load_from` (clock.py lines 224-236):
select the rows labelled `profile` and reassemble them by ascending integer
position (`unstack` sorts the column labels), read them as floats, and read
the single `start_date` and `profile_time_steps` cells (`.values[0][0]`
takes the first matching row).  A missing or malformed field makes the
whole load fail, constructing no profile. -/
def CyclicTimerProfile.load_from (rows : List SavedRow) : Option CyclicTimerProfile :=
  match readNums ((rows.filter fun r => r.1.1 == "profile").insertionSort
        fun a b => a.1.2 ≤ b.1.2),
      (rows.filter fun r => r.1.1 == "start_date").head?,
      (rows.filter fun r => r.1.1 == "profile_time_steps").head? with
  | some ws, some (_, SavedCell.date d), some (_, SavedCell.str s) =>
      some ⟨ws, s, d⟩
  | _, _, _ => none

/-- The position labels of the saved profile rows ascend, so the sort that
`unstack` applies leaves them in place. -/
theorem sorted_profile_rows (ws : List ℚ) :
    ∀ n, List.Sorted (fun a b : SavedRow => a.1.2 ≤ b.1.2)
      ((ws.enumFrom n).map fun it => (("profile", it.1), SavedCell.num it.2)) := by
  induction ws with
  | nil => intro n; simp
  | cons w ws ih =>
    intro n
    simp only [List.enumFrom_cons, List.map_cons]
    rw [List.sorted_cons]
    refine ⟨?_, ih (n + 1)⟩
    intro b hb
    rcases List.mem_map.mp hb with ⟨⟨i, w'⟩, hmem, rfl⟩
    have : n + 1 ≤ i := (List.mk_mem_enumFrom_iff_le_and_getElem?_sub.mp hmem).1
    exact Nat.le_of_succ_le this

/-- Reading back the numeric profile rows recovers the weights. -/
theorem readNums_profile_rows (l : List (ℕ × ℚ)) :
    readNums (l.map fun it => (("profile", it.1), SavedCell.num it.2))
      = some (l.map Prod.snd) := by
  induction l with
  | nil => rfl
  | cons q rest ih =>
    obtain ⟨i, w⟩ := q
    simp only [List.map_cons, readNums, ih, Option.map_some']

/-- C9: saving a `CyclicTimerProfile` with `save_to` and loading the file
back with `load_from` yields an equivalent profile: the same weights in
the same order, the same phase-duration token, and the same anchor
instant. -/
theorem save_load_roundtrip (p : CyclicTimerProfile) :
    CyclicTimerProfile.load_from (CyclicTimerProfile.save_to p) = some p := by
  have hall : ∀ a ∈ (p.profile.enum.map
      fun it => (("profile", it.1), SavedCell.num it.2)),
      (a.1.1 == "profile") = true := by
    intro a ha
    rcases List.mem_map.mp ha with ⟨it, _, rfl⟩
    simp
  have hsd : ∀ a ∈ (p.profile.enum.map
      fun it => (("profile", it.1), SavedCell.num it.2)),
      ¬((a.1.1 == "start_date") = true) := by
    intro a ha
    rcases List.mem_map.mp ha with ⟨it, _, rfl⟩
    simp
  have hts : ∀ a ∈ (p.profile.enum.map
      fun it => (("profile", it.1), SavedCell.num it.2)),
      ¬((a.1.1 == "profile_time_steps") = true) := by
    intro a ha
    rcases List.mem_map.mp ha with ⟨it, _, rfl⟩
    simp
  have h1 : (CyclicTimerProfile.save_to p).filter (fun r => r.1.1 == "profile")
      = p.profile.enum.map fun it => (("profile", it.1), SavedCell.num it.2) := by
    unfold CyclicTimerProfile.save_to
    rw [List.filter_append, List.filter_eq_self.mpr hall]
    simp
  have h2 : (CyclicTimerProfile.save_to p).filter (fun r => r.1.1 == "start_date")
      = [(("start_date", 0), SavedCell.date p.start_date)] := by
    unfold CyclicTimerProfile.save_to
    rw [List.filter_append, List.filter_eq_nil_iff.mpr hsd]
    simp
  have h3 : (CyclicTimerProfile.save_to p).filter
        (fun r => r.1.1 == "profile_time_steps")
      = [(("profile_time_steps", 0), SavedCell.str p.profile_time_steps)] := by
    unfold CyclicTimerProfile.save_to
    rw [List.filter_append, List.filter_eq_nil_iff.mpr hts]
    simp
  have hsorted : List.Sorted (fun a b : SavedRow => a.1.2 ≤ b.1.2)
      (p.profile.enum.map fun it => (("profile", it.1), SavedCell.num it.2)) := by
    have := sorted_profile_rows p.profile 0
    simpa [List.enum] using this
  unfold CyclicTimerProfile.load_from
  rw [h1, h2, h3, List.Sorted.insertionSort_eq hsorted, readNums_profile_rows]
  simp [List.enum, List.enumFrom_map_snd]
